import Mathlib

/-!
Verification of the nom feed reader's item storage engine and configuration
loader against its natural-language specification.

The item model and the `Store` interface are embedded from
`internal/store` (Go).  The in-memory backend (`internal/store/memorystore`)
ships only with its test file here, so its operations are modelled from the
specification (sections 3, 4.1, 4.3, 4.4) and checked against the behaviour
the tests in `memorystore_test.go` pin down.  The configuration loader is
embedded from `internal/config/config.go`.

Conventions: Go `time.Time` is modelled as `Nat` (nanoseconds since epoch;
`0` is the zero value, so `IsZero` becomes `= 0`); Go `int` identifiers are
`Nat` (they are engine-assigned counters starting at 1); Go maps keyed by
strings are association lists with an explicit lookup function.
-/

namespace Nom

/-- The `Item` record, embedded field for field from the Go struct
`store.Item` (`internal/store`).  `ReadAt`, `PublishedAt`, `UpdatedAt`
and `CreatedAt` are `time.Time` values modelled as `Nat`. -/
structure Item where
  id : Nat
  author : String
  title : String
  favourite : Bool
  feedurl : String
  feedname : String
  link : String
  guid : String
  content : String
  readAt : Nat
  publishedAt : Nat
  updatedAt : Nat
  createdAt : Nat
deriving DecidableEq, Repr

/-- Embeds the Go method `Item.Read`, which returns `!i.ReadAt.IsZero()`. -/
def Item.Read (i : Item) : Bool :=
  !(i.readAt == 0)

/-- The names of the methods declared in the Go `Store` interface
(`internal/store`), transcribed in declaration order. -/
def storeInterfaceMethods : List String :=
  ["UpsertItem", "BeginBatch", "EndBatch", "GetAllItems", "GetItemByID",
   "GetAllFeedURLs", "ToggleRead", "MarkAllRead", "ToggleFavourite",
   "DeleteByFeedURL", "CountUnread"]

/-- The error kinds of the storage contract (specification section 7):
`NotFoundError` for a missing identifier and `InvalidStateError` for
illegal batch nesting or operation sequencing. -/
inductive StoreError where
  | notFoundError
  | invalidStateError
deriving DecidableEq, Repr

/-- Modelled from the spec: the state of the ephemeral (in-memory) backend
of `internal/store/memorystore`, whose implementation file is missing;
the fields are the ones its tests observe (`items`, `guidIndex`, `nextID`)
plus the batch flag required by section 4.3.  The dedup index maps a
(feed URL, GUID) key to the identifier of the record holding it
(section 3: a record with a non-empty GUID is unique per (feed URL, GUID)
pair; section 9: natural-key dedup via secondary index). -/
structure MemoryStore where
  items : List Item
  guidIndex : List ((String × String) × Nat)
  nextID : Nat
  batchOpen : Bool
deriving DecidableEq, Repr

/-- Lookup in the dedup index, modelling a Go map read. -/
def lookupKey : List ((String × String) × Nat) → String × String → Option Nat
  | [], _ => none
  | e :: rest, k => if e.1 = k then some e.2 else lookupKey rest k

/-- Modelled from the spec: `NewMemoryStore` (memorystore implementation
missing); its test requires empty `items`, an initialized `guidIndex` and
`nextID = 1`. -/
def NewMemoryStore : MemoryStore :=
  { items := [], guidIndex := [], nextID := 1, batchOpen := false }

/-- Modelled from the spec (section 4.1): merging the mutable fields of a
candidate into an existing record — title, author, content, link and the
published/updated timestamps are refreshed; identifier, `created-at`,
favourite flag and `read-at` (and the dedup key fields) are preserved. -/
def mergeInto (old cand : Item) : Item :=
  { old with
    title := cand.title
    author := cand.author
    content := cand.content
    link := cand.link
    publishedAt := cand.publishedAt
    updatedAt := cand.updatedAt }

/-- Modelled from the spec (sections 3, 4.1): insertion of a
previously-unseen candidate — the next identifier is assigned,
`created-at` is stamped to the current time `now`, the record is appended,
and a non-empty GUID is recorded in the dedup index. -/
def insertNew (s : MemoryStore) (cand : Item) (now : Nat) : MemoryStore :=
  let newItem := { cand with id := s.nextID, createdAt := now }
  { s with
    items := s.items ++ [newItem]
    guidIndex :=
      if cand.guid ≠ "" then ((cand.feedurl, cand.guid), s.nextID) :: s.guidIndex
      else s.guidIndex
    nextID := s.nextID + 1 }

/-- Modelled from the spec (section 4.1): `UpsertItem` (memorystore
implementation missing).  A candidate with a non-empty, previously-seen
(feed URL, GUID) key updates the existing record in place; otherwise —
empty GUID or unseen key — the candidate is inserted as new. -/
def UpsertItem (s : MemoryStore) (cand : Item) (now : Nat) : MemoryStore :=
  if cand.guid ≠ "" then
    match lookupKey s.guidIndex (cand.feedurl, cand.guid) with
    | some matchedId =>
        { s with items := s.items.map fun j => if j.id = matchedId then mergeInto j cand else j }
    | none => insertNew s cand now
  else insertNew s cand now

/-- Fold a batch of upserts (each paired with its insertion clock). -/
def upsertAll (s : MemoryStore) (batch : List (Item × Nat)) : MemoryStore :=
  batch.foldl (fun acc p => UpsertItem acc p.1 p.2) s

/-- Ascending comparator of section 4.4: `published-at` ascending,
identifier ascending on ties. -/
def ascRel (a b : Item) : Prop :=
  a.publishedAt < b.publishedAt ∨ (a.publishedAt = b.publishedAt ∧ a.id ≤ b.id)

/-- Descending comparator of section 4.4: `published-at` descending,
identifier descending on ties. -/
def descRel (a b : Item) : Prop :=
  b.publishedAt < a.publishedAt ∨ (a.publishedAt = b.publishedAt ∧ b.id ≤ a.id)

instance : DecidableRel ascRel := fun a b => by unfold ascRel; infer_instance

instance : DecidableRel descRel := fun a b => by unfold descRel; infer_instance

/-- The ordering tokens of `internal/constants` (Go source):
`AscendingOrdering = "asc"`. -/
def AscendingOrdering : String := "asc"

/-- The ordering tokens of `internal/constants` (Go source):
`DescendingOrdering = "desc"`. -/
def DescendingOrdering : String := "desc"

/-- `constants.DefaultOrdering` from the Go source, defined there as
`AscendingOrdering`. -/
def DefaultOrdering : String := AscendingOrdering

/-- Modelled from the spec (sections 4.1, 4.4): `GetAllItems` (memorystore
implementation missing) sorts the whole collection by the comparator the
ordering token selects: `"desc"` picks the descending comparator, any
other value the ascending one. -/
def GetAllItems (s : MemoryStore) (ordering : String) : List Item :=
  if ordering = DescendingOrdering then List.insertionSort descRel s.items
  else List.insertionSort ascRel s.items

/-- Whether some record carries the identifier. -/
def hasId (s : MemoryStore) (itemId : Nat) : Bool :=
  s.items.any fun j => j.id == itemId

/-- Modelled from the spec (section 4.1): `GetItemByID` — exact lookup,
`NotFoundError` when no record has the identifier. -/
def GetItemByID (s : MemoryStore) (itemId : Nat) : Except StoreError Item :=
  match s.items.find? (fun j => j.id == itemId) with
  | some j => .ok j
  | none => .error .notFoundError

/-- Modelled from the spec (section 4.1): `ToggleRead` — flips the read
state of the addressed record: a zero `read-at` becomes the current time,
a non-zero one is cleared to zero; `NotFoundError` when absent. -/
def ToggleRead (s : MemoryStore) (itemId : Nat) (now : Nat) : Except StoreError MemoryStore :=
  if hasId s itemId then
    .ok { s with items := s.items.map fun j =>
      if j.id = itemId then
        (if j.readAt = 0 then { j with readAt := now } else { j with readAt := 0 })
      else j }
  else .error .notFoundError

/-- Modelled from the spec (section 4.1): `MarkRead` — idempotent absolute
setter of the read state (memorystore implementation missing; exercised by
`TestMarkRead`): a zero `read-at` is set to the current time, a non-zero
one is left with its original value; `NotFoundError` when absent. -/
def MarkRead (s : MemoryStore) (itemId : Nat) (now : Nat) : Except StoreError MemoryStore :=
  if hasId s itemId then
    .ok { s with items := s.items.map fun j =>
      if j.id = itemId then
        (if j.readAt = 0 then { j with readAt := now } else j)
      else j }
  else .error .notFoundError

/-- Modelled from the spec (section 4.1): `MarkUnread` — idempotent
absolute setter clearing `read-at` to zero; `NotFoundError` when absent. -/
def MarkUnread (s : MemoryStore) (itemId : Nat) : Except StoreError MemoryStore :=
  if hasId s itemId then
    .ok { s with items := s.items.map fun j =>
      if j.id = itemId then { j with readAt := 0 } else j }
  else .error .notFoundError

/-- Modelled from the spec (section 4.1): `MarkAllRead` — sets `read-at`
to the current time for every record whose `read-at` is zero and leaves
already-read records with their original `read-at`. -/
def MarkAllRead (s : MemoryStore) (now : Nat) : Except StoreError MemoryStore :=
  .ok { s with items := s.items.map fun j =>
    if j.readAt = 0 then { j with readAt := now } else j }

/-- Modelled from the spec (section 4.1): `ToggleFavourite` — flips the
favourite flag; `NotFoundError` when absent. -/
def ToggleFavourite (s : MemoryStore) (itemId : Nat) : Except StoreError MemoryStore :=
  if hasId s itemId then
    .ok { s with items := s.items.map fun j =>
      if j.id = itemId then { j with favourite := !j.favourite } else j }
  else .error .notFoundError

/-- Modelled from the spec (sections 4.1, 4.2): `DeleteByFeedURL` —
removes every record whose feed URL matches except, when
`incFavourites` is false, those with the favourite flag set; stale dedup
index entries are purged; zero matches is a no-op success. -/
def DeleteByFeedURL (s : MemoryStore) (feedurl : String) (incFavourites : Bool) :
    Except StoreError MemoryStore :=
  let kept := s.items.filter fun j => !(j.feedurl == feedurl && (incFavourites || !j.favourite))
  .ok { s with
    items := kept
    guidIndex := s.guidIndex.filter fun e => kept.any (fun j => j.id == e.2) }

/-- Modelled from the spec (section 4.1): `CountUnread` — the number of
records with zero `read-at` across the whole collection. -/
def CountUnread (s : MemoryStore) : Nat :=
  (s.items.filter fun j => j.readAt == 0).length

/-- Modelled from the spec (sections 4.1, 4.3): `BeginBatch` on the
ephemeral backend — a simple flag that still rejects illegal nesting with
`InvalidStateError`. -/
def BeginBatch (s : MemoryStore) : Except StoreError MemoryStore :=
  if s.batchOpen then .error .invalidStateError
  else .ok { s with batchOpen := true }

/-- Modelled from the spec (sections 4.1, 4.3): `EndBatch` on the
ephemeral backend — closes an open batch; closing without an open batch is
an operation-sequencing error (section 7). -/
def EndBatch (s : MemoryStore) : Except StoreError MemoryStore :=
  if s.batchOpen then .ok { s with batchOpen := false }
  else .error .invalidStateError

/-- Modelled from the spec (sections 4.2, 5): the batch-mode state of the
durable (disk-resident) backend, whose implementation is also outside the
given sources — committed records, the buffer of an open batch, and the
batch flag. -/
structure SQLiteStore where
  committed : List Item
  pending : List Item
  batchOpen : Bool
deriving DecidableEq, Repr

/-- Modelled from the spec (sections 4.1, 4.2): `BeginBatch` on the
durable backend — opens the buffered bulk-write mode and rejects illegal
nesting with `InvalidStateError`. -/
def SQLiteStore.beginBatch (s : SQLiteStore) : Except StoreError SQLiteStore :=
  if s.batchOpen then .error .invalidStateError
  else .ok { s with batchOpen := true, pending := [] }

/-!
Configuration loader, embedded from `internal/config/config.go`.

Paths are Unix path strings.  The Go `path/filepath` helpers the loader
uses are modelled below; the `Clean` normalization they perform is the
identity on paths that are already clean (no `.`, `..` or doubled
separators), which is the fragment the loader's tests and callers use, so
it is omitted.
-/

/-- The characters of a string after the last occurrence of `c`
(the whole string when `c` does not occur). -/
def afterLast (c : Char) (l : List Char) : List Char :=
  (l.reverse.takeWhile (fun x => x ≠ c)).reverse

/-- The characters of a string strictly before the last occurrence of
`c`. -/
def beforeLast (c : Char) (l : List Char) : List Char :=
  ((l.reverse.dropWhile (fun x => x ≠ c)).drop 1).reverse

/-- Go `filepath.IsAbs` on Unix: the path starts with a separator. -/
def goIsAbs (p : String) : Bool :=
  match p.toList with
  | '/' :: _ => true
  | _ => false

/-- Go `filepath.Join` of two components (cleaning omitted, see above). -/
def goJoin (a b : String) : String :=
  if a = "" then b
  else
    match a.toList.reverse with
    | '/' :: _ => a ++ b
    | _ => a ++ "/" ++ b

/-- Go `filepath.Base`: the last element of the path, after dropping
trailing separators; `"."` for the empty path, `"/"` for the root. -/
def goBase (p : String) : String :=
  if p = "" then "."
  else
    let l := (p.toList.reverse.dropWhile (fun x => x = '/')).reverse
    if l = [] then "/" else String.mk (afterLast '/' l)

/-- Go `filepath.Dir`: everything before the final element
(cleaning omitted); `"."` when the path has no separator. -/
def goDir (p : String) : String :=
  if p.toList.contains '/' then
    let pre := beforeLast '/' p.toList
    if pre = [] then "/" else String.mk pre
  else "."

/-- Go `filepath.Ext`: the suffix of the final element beginning at its
last dot, empty when the final element has no dot. -/
def goExt (p : String) : String :=
  let fin := afterLast '/' p.toList
  if fin.contains '.' then String.mk ('.' :: afterLast '.' fin) else ""

/-- Go `filepath.Abs` (cleaning omitted): the path itself when absolute,
otherwise joined onto the working directory `cwd`. -/
def absNorm (cwd p : String) : String :=
  if goIsAbs p then p else goJoin cwd p

/-- `DefaultConfigFileName` from `config.go`. -/
def DefaultConfigFileName : String := "default.yml"

/-- `LegacyConfigFileName` from `config.go`. -/
def LegacyConfigFileName : String := "config.yml"

/-- `LegacyDatabaseName` from `config.go`. -/
def LegacyDatabaseName : String := "nom.db"

/-- `defaultDatabaseName` from `config.go`: the base name of the config
path with its extension (when present) replaced by `".db"`. -/
def defaultDatabaseName (configPath : String) : String :=
  let basename := goBase configPath
  let ext := goExt basename
  let basename :=
    if ext ≠ "" then
      String.mk (basename.toList.take (basename.toList.length - ext.toList.length))
    else basename
  basename ++ ".db"

/-- `resolveIncludePath` from `config.go`: an include path is taken as-is
when absolute and resolved relative to the config directory otherwise. -/
def resolveIncludePath (configDir includePath : String) : String :=
  if goIsAbs includePath then includePath
  else goJoin configDir includePath

/-- The YAML `Config` struct of `config.go`, projected onto the fields the
claims under verification observe: the `database` entry and the `include`
list.  The zero value of both fields is the Go zero value. -/
structure GoConfig where
  database : String
  includes : List String
deriving DecidableEq, Repr

/-- The zero `Config` value (`&Config{}` in `loadConfigWithIncludes`). -/
def zeroConfig : GoConfig :=
  { database := "", includes := [] }

/-- `mergo.Merge(dst, src, mergo.WithOverride)` on the projected fields: a
non-zero field of `src` overrides the one of `dst`. -/
def mergeConfig (dst src : GoConfig) : GoConfig :=
  { database := if src.database ≠ "" then src.database else dst.database
    includes := if src.includes ≠ [] then src.includes else dst.includes }

/-- The file system the loader reads from, as an association list from
path to the parsed config of the file there; a path that is absent cannot
be read (`os.ReadFile` fails). -/
structure Env where
  fs : List (String × GoConfig)
  cwd : String

/-- Reading a path from the modelled file system. -/
def lookupFs : List (String × GoConfig) → String → Option GoConfig
  | [], _ => none
  | e :: rest, p => if e.1 = p then some e.2 else lookupFs rest p

/-- The errors of the loading pipeline.  `includeLoop` is `ErrIncludeLoop`;
`readError` models a failing `loadConfigFile`; `configMissing` models the
`setupConfigDir` failure for an absent config file; `wrapped` models
`fmt.Errorf("...: %w", err)`, which keeps the wrapped error reachable by
`errors.Is`; `outOfFuel` is an artifact of the fuel-based embedding of the
recursion and is proved unreachable for sufficient fuel. -/
inductive LoadErr where
  | includeLoop
  | readError (path : String)
  | configMissing (path : String)
  | wrapped (ctx : String) (e : LoadErr)
  | outOfFuel
deriving DecidableEq, Repr

/-- `errors.Is(err, ErrIncludeLoop)`: walks the `%w` wrapping chain. -/
def isIncludeLoopErr : LoadErr → Bool
  | .includeLoop => true
  | .wrapped _ e => isIncludeLoopErr e
  | _ => false

/-- The two call shapes of the include-loading recursion: loading one
config file, or folding over the include list of a file being loaded. -/
inductive LoadCall where
  | file (visited : List String) (configPath : String)
  | incs (visited : List String) (dir : String) (paths : List String) (base : GoConfig)

/-- `loadConfigWithIncludes` from `config.go` together with its
include-processing loop, as one recursion on an explicit fuel (the Go
recursion is bounded by the visited map; fuel from `loadFuel` is proved
sufficient below).  Loading a file normalizes its path to an absolute
path; a revisit of an already-loaded file is `ErrIncludeLoop`; otherwise
the file is read and, when its include list is non-empty, the includes
are resolved against the file's directory and loaded in order, each error
wrapped with the include path (`error loading %s: %w`), the loaded
configs merged left to right into a base config, and the file's own
config merged on top.  The visited set is threaded through the whole
traversal, modelling the shared Go map. -/
def loadGo (E : Env) : Nat → LoadCall → Except LoadErr (GoConfig × List String)
  | 0, _ => .error .outOfFuel
  | fuel + 1, .file visited configPath =>
    if absNorm E.cwd configPath ∈ visited then .error .includeLoop
    else
      match lookupFs E.fs configPath with
      | none => .error (.readError configPath)
      | some cfg =>
        if cfg.includes = [] then .ok (cfg, absNorm E.cwd configPath :: visited)
        else
          match loadGo E fuel
              (.incs (absNorm E.cwd configPath :: visited) (goDir configPath)
                cfg.includes zeroConfig) with
          | .error e => .error e
          | .ok (base, visited') => .ok (mergeConfig base cfg, visited')
  | _ + 1, .incs visited _ [] base => .ok (base, visited)
  | fuel + 1, .incs visited dir (p :: rest) base =>
    match loadGo E fuel (.file visited (resolveIncludePath dir p)) with
    | .error e => .error (.wrapped p e)
    | .ok (c, visited') => loadGo E fuel (.incs visited' dir rest (mergeConfig base c))

/-- Loading one config file with include support (the entry point the Go
`Load` uses). -/
def loadConfigWithIncludes (E : Env) (fuel : Nat) (visited : List String)
    (configPath : String) : Except LoadErr (GoConfig × List String) :=
  loadGo E fuel (.file visited configPath)

/-- The runtime state `Runtime` of `config.go`, projected onto the fields
the claims observe: the config path and directory, and
`Runtime.Config.Database` (empty unless set through `WithDatabase`).  The
`Create` flag is false and `PreviewFeeds` is empty, the configuration of
every loader test the claims cite. -/
structure RuntimeM where
  configPath : String
  configDir : String
  database : String
deriving DecidableEq, Repr

/-- `Runtime.WithDatabase` from `config.go`: a non-empty argument
overrides the database name before `Load` runs. -/
def withDatabase (r : RuntimeM) (database : String) : RuntimeM :=
  if database ≠ "" then { r with database := database } else r

/-- The fuel `Load` hands the include recursion: more than two frames per
file plus one frame per include entry, proved sufficient below. -/
def loadFuel (E : Env) : Nat :=
  2 * E.fs.length + (E.fs.map fun e => e.2.includes.length).sum + 1

/-- The `setupConfigDir` phase of `Load` (with `Create = false` and no
preview feeds): the configured file must exist; when it does not and its
base name is the default `default.yml`, `Load` retries with the legacy
`config.yml` beside it; otherwise `setupConfigDir` fails. -/
def loadResolve (E : Env) (r : RuntimeM) : Option RuntimeM :=
  if (lookupFs E.fs r.configPath).isSome then some r
  else if goBase r.configPath = DefaultConfigFileName then
    if (lookupFs E.fs (goJoin r.configDir LegacyConfigFileName)).isSome then
      some { r with configPath := goJoin r.configDir LegacyConfigFileName }
    else none
  else none

/-- The database-name resolution at the end of `Load`: `existing` is the
name present before the merge (set through `WithDatabase`), `merged` the
name after the file config was merged over it.  When both are empty the
name is derived from the config path — the legacy `nom.db` when the
path's base name is `config.yml`, else the base name with its extension
replaced by `".db"`; a `WithDatabase` name always wins. -/
def resolveDatabase (existing merged configPath : String) : String :=
  if existing = "" ∧ merged = "" then
    if goBase configPath = LegacyConfigFileName then LegacyDatabaseName
    else defaultDatabaseName configPath
  else if existing ≠ "" then existing
  else merged

/-- The runtime after a successful `Load` body: only the database name
changes, per `resolveDatabase` with the mergo-merged database value. -/
def finishLoad (r : RuntimeM) (fileConfig : GoConfig) : RuntimeM :=
  { r with
    database :=
      resolveDatabase r.database
        (if fileConfig.database ≠ "" then fileConfig.database else r.database)
        r.configPath }

/-- `Runtime.Load` from `config.go` (with `Create = false` and no preview
feeds): `setupConfigDir` with legacy fallback, then the include-aware
config load (its error wrapped `config.Load: %w`), then database-name
resolution. -/
def loadModel (E : Env) (r : RuntimeM) : Except LoadErr (RuntimeM × GoConfig) :=
  match loadResolve E r with
  | none => .error (.wrapped "config Load" (.configMissing r.configPath))
  | some r2 =>
    match loadConfigWithIncludes E (loadFuel E) [] r2.configPath with
    | .error e => .error (.wrapped "config.Load" e)
    | .ok (fileConfig, _) => .ok (finishLoad r2 fileConfig, fileConfig)

/-- Whether a load result is a failure whose wrapping chain contains
`ErrIncludeLoop`. -/
def failsWithIncludeLoop (res : Except LoadErr (RuntimeM × GoConfig)) : Bool :=
  match res with
  | .error e => isIncludeLoopErr e
  | .ok _ => false

/-- One `include` step between files: `q` is the resolution, against `p`'s
directory, of an entry of the include list of the file at `p`. -/
def Edge (E : Env) (p q : String) : Prop :=
  ∃ cfg, lookupFs E.fs p = some cfg ∧
    q ∈ cfg.includes.map (resolveIncludePath (goDir p))

/-- A chain of include steps starting at a file, listing the files
visited in order. -/
inductive Chain (E : Env) : String → List String → Prop where
  | single (p : String) : Chain E p [p]
  | cons {p q : String} {l : List String} :
      Edge E p q → Chain E q l → Chain E p (p :: l)

/-- Decidable closure condition on the modelled file system: every
include entry of every file resolves to a readable file. -/
def includeClosed (E : Env) : Bool :=
  E.fs.all fun e =>
    e.2.includes.all fun inc =>
      (lookupFs E.fs (resolveIncludePath (goDir e.1) inc)).isSome

/-- The potential of the include recursion against a visited set: every
file-system entry whose normalized path is not yet visited contributes
two frames plus one frame per include entry.  It strictly bounds the
fuel the recursion can consume. -/
def loadPotential (E : Env) (visited : List String) : Nat :=
  ((E.fs.filter fun e => absNorm E.cwd e.1 ∉ visited).map
    fun e => 2 + e.2.includes.length).sum

instance {α β : Type} [DecidableEq α] [DecidableEq β] : DecidableEq (Except α β) :=
  fun a b =>
    match a, b with
    | .ok x, .ok y =>
        if h : x = y then isTrue (by rw [h]) else isFalse (by intro hc; injection hc; contradiction)
    | .error x, .error y =>
        if h : x = y then isTrue (by rw [h]) else isFalse (by intro hc; injection hc; contradiction)
    | .ok _, .error _ => isFalse (by intro hc; injection hc)
    | .error _, .ok _ => isFalse (by intro hc; injection hc)

instance : IsTotal Item ascRel :=
  ⟨by
    intro a b
    unfold ascRel
    rcases Nat.lt_trichotomy a.publishedAt b.publishedAt with h | h | h
    · exact Or.inl (Or.inl h)
    · rcases Nat.le_total a.id b.id with h2 | h2
      · exact Or.inl (Or.inr ⟨h, h2⟩)
      · exact Or.inr (Or.inr ⟨h.symm, h2⟩)
    · exact Or.inr (Or.inl h)⟩

instance : IsTrans Item ascRel :=
  ⟨by
    intro a b c hab hbc
    unfold ascRel at *
    rcases hab with h1 | ⟨h1, h1b⟩ <;> rcases hbc with h2 | ⟨h2, h2b⟩
    · exact Or.inl (Nat.lt_trans h1 h2)
    · exact Or.inl (h2 ▸ h1)
    · exact Or.inl (h1 ▸ h2)
    · exact Or.inr ⟨h1.trans h2, Nat.le_trans h1b h2b⟩⟩

instance : IsTotal Item descRel :=
  ⟨by
    intro a b
    unfold descRel
    rcases Nat.lt_trichotomy a.publishedAt b.publishedAt with h | h | h
    · exact Or.inr (Or.inl h)
    · rcases Nat.le_total a.id b.id with h2 | h2
      · exact Or.inr (Or.inr ⟨h.symm, h2⟩)
      · exact Or.inl (Or.inr ⟨h, h2⟩)
    · exact Or.inl (Or.inl h)⟩

instance : IsTrans Item descRel :=
  ⟨by
    intro a b c hab hbc
    unfold descRel at *
    rcases hab with h1 | ⟨h1, h1b⟩ <;> rcases hbc with h2 | ⟨h2, h2b⟩
    · exact Or.inl (Nat.lt_trans h2 h1)
    · exact Or.inl (h2 ▸ h1)
    · exact Or.inl (h1.symm ▸ h2)
    · exact Or.inr ⟨h1.trans h2, Nat.le_trans h2b h1b⟩⟩

/-- A concrete item for the concrete instances below: only the fields the
properties under test exercise vary. -/
def mkItem (itemId : Nat) (title feedurl guid : String) (readAt publishedAt : Nat)
    (fav : Bool) : Item :=
  { id := itemId, author := "", title := title, favourite := fav, feedurl := feedurl,
    feedname := "", link := "", guid := guid, content := "", readAt := readAt,
    publishedAt := publishedAt, updatedAt := 0, createdAt := 0 }

/-- A concrete one-item store (identifier 1, unread). -/
def wStore : MemoryStore :=
  { items := [mkItem 1 "t" "f" "g1" 0 10 false]
    guidIndex := [(("f", "g1"), 1)], nextID := 2, batchOpen := false }

/-- `wStore` after its record was marked read at time 5. -/
def wStoreRead : MemoryStore :=
  { items := [mkItem 1 "t" "f" "g1" 5 10 false]
    guidIndex := [(("f", "g1"), 1)], nextID := 2, batchOpen := false }

/-- `wStore` after its record was marked unread. -/
def wStoreUnread : MemoryStore :=
  { items := [mkItem 1 "t" "f" "g1" 0 10 false]
    guidIndex := [(("f", "g1"), 1)], nextID := 2, batchOpen := false }

/-- The three-item scenario of `TestDeleteByFeedURL`: two records on
`feed1` (one favourite), one favourite record on `feed2`. -/
def delStore : MemoryStore :=
  { items := [mkItem 1 "Item 1" "feed1" "g1" 0 1 false,
              mkItem 2 "Item 2" "feed2" "g2" 0 2 true,
              mkItem 3 "Item 3" "feed1" "g3" 0 3 true]
    guidIndex := [(("feed1", "g3"), 3), (("feed2", "g2"), 2), (("feed1", "g1"), 1)]
    nextID := 4, batchOpen := false }

/-- The two-item scenario of `TestMarkAllRead`-style checks: one unread,
one already read at time 4. -/
def readStore : MemoryStore :=
  { items := [mkItem 1 "a" "f" "g1" 0 1 false, mkItem 2 "b" "f" "g2" 4 2 false]
    guidIndex := [(("f", "g2"), 2), (("f", "g1"), 1)], nextID := 3, batchOpen := false }

/-- A cyclic include scenario: `/c/a.yml` includes `b.yml`, which includes
`a.yml` back — the layout of `TestIncludeLoop`. -/
def envLoopW : Env :=
  { fs := [("/c/a.yml", { database := "", includes := ["b.yml"] }),
           ("/c/b.yml", { database := "", includes := ["a.yml"] })]
    cwd := "/" }

/-- The runtime pointing at the root of the cyclic include scenario. -/
def rLoopW : RuntimeM :=
  { configPath := "/c/a.yml", configDir := "/c/", database := "" }

/-- A file system holding one config file explicitly named with the
legacy base name `config.yml` and with no `database` entry. -/
def envLegacyName : Env :=
  { fs := [("/home/u/config.yml", { database := "", includes := [] })], cwd := "/" }

/-- The runtime pointing directly (no fallback) at
`/home/u/config.yml`, with no database override. -/
def rLegacyName : RuntimeM :=
  { configPath := "/home/u/config.yml", configDir := "/home/u/", database := "" }

/-- A file system with a single config file `/a/b.yml` without a
`database` entry. -/
def envPlain : Env :=
  { fs := [("/a/b.yml", { database := "", includes := [] })], cwd := "/" }

/-- The runtime pointing at `/a/b.yml` with no database override. -/
def rPlain : RuntimeM :=
  { configPath := "/a/b.yml", configDir := "/a/", database := "" }

/-- `readStore` after `MarkAllRead` at time 9: the unread record got
`read-at` 9, the already-read one kept `read-at` 4. -/
def tMarked : MemoryStore :=
  { items := [mkItem 1 "a" "f" "g1" 9 1 false, mkItem 2 "b" "f" "g2" 4 2 false]
    guidIndex := [(("f", "g2"), 2), (("f", "g1"), 1)], nextID := 3, batchOpen := false }

/-- `delStore` after `DeleteByFeedURL("feed1", false)`: the non-favourite
`feed1` record is gone, the favourite one survives, and its stale index
entry is purged. -/
def tDel : MemoryStore :=
  { items := [mkItem 2 "Item 2" "feed2" "g2" 0 2 true, mkItem 3 "Item 3" "feed1" "g3" 0 3 true]
    guidIndex := [(("feed1", "g3"), 3), (("feed2", "g2"), 2)], nextID := 4, batchOpen := false }

/-!  Helper lemmas shared by the claim theorems.  -/

theorem getAllItems_perm (s : MemoryStore) (ordering : String) :
    (GetAllItems s ordering).Perm s.items := by
  unfold GetAllItems
  split
  · exact List.perm_insertionSort descRel s.items
  · exact List.perm_insertionSort ascRel s.items

theorem count_filter_eq (l : List Item) (p : Item → Bool) (a : Item) :
    (l.filter p).count a = if p a then l.count a else 0 := by
  induction l with
  | nil => simp
  | cons x xs ih =>
    by_cases hx : p x
    · by_cases hax : x = a
      · subst hax
        simp [List.filter_cons, hx, List.count_cons, ih]
      · simp [List.filter_cons, hx, List.count_cons, ih, hax]
    · by_cases hax : x = a
      · subst hax
        simp [List.filter_cons, hx, List.count_cons, ih]
      · simp [List.filter_cons, hx, List.count_cons, ih, hax]

theorem lookupKey_mem :
    ∀ (l : List ((String × String) × Nat)) (k : String × String) (v : Nat),
      lookupKey l k = some v → ∃ e ∈ l, e.1 = k := by
  intro l k v
  induction l with
  | nil => intro h; exact absurd h (by simp [lookupKey])
  | cons e rest ih =>
    intro h
    unfold lookupKey at h
    by_cases hek : e.1 = k
    · exact ⟨e, by simp, hek⟩
    · rw [if_neg hek] at h
      obtain ⟨f, hf, hfk⟩ := ih h
      exact ⟨f, by simp [hf], hfk⟩

theorem upsert_shape :
    ∀ (s : MemoryStore) (cand : Item) (now : Nat),
      ((UpsertItem s cand now).items.map (fun j => j.id) = s.items.map (fun j => j.id) ∧
        (UpsertItem s cand now).nextID = s.nextID) ∨
      ((UpsertItem s cand now).items.map (fun j => j.id) =
        s.items.map (fun j => j.id) ++ [s.nextID] ∧
        (UpsertItem s cand now).nextID = s.nextID + 1) := by
  intro s cand now
  unfold UpsertItem
  by_cases hg : cand.guid ≠ ""
  · rw [if_pos hg]
    cases hlk : lookupKey s.guidIndex (cand.feedurl, cand.guid) with
    | some v =>
      left
      constructor
      · show (s.items.map _).map _ = _
        rw [List.map_map]
        refine List.map_congr_left ?_
        intro j hj
        simp only [Function.comp_apply]
        by_cases hv : j.id = v
        · simp [hv, mergeInto]
        · simp [hv]
      · rfl
    | none =>
      right
      unfold insertNew
      exact ⟨by simp, rfl⟩
  · rw [if_neg hg]
    right
    unfold insertNew
    exact ⟨by simp, rfl⟩

theorem upsertAll_id_absent :
    ∀ (batch : List (Item × Nat)) (s : MemoryStore) (x : Nat),
      x ∉ s.items.map (fun j => j.id) → x < s.nextID →
      x ∉ (upsertAll s batch).items.map (fun j => j.id) := by
  intro batch
  induction batch with
  | nil =>
    intro s x h1 h2
    simpa [upsertAll] using h1
  | cons p rest ih =>
    intro s x h1 h2
    show x ∉ (upsertAll (UpsertItem s p.1 p.2) rest).items.map (fun j => j.id)
    rcases upsert_shape s p.1 p.2 with ⟨hi, hn⟩ | ⟨hi, hn⟩
    · exact ih (UpsertItem s p.1 p.2) x (by rw [hi]; exact h1) (by rw [hn]; exact h2)
    · refine ih (UpsertItem s p.1 p.2) x ?_ (by rw [hn]; omega)
      rw [hi]
      intro hmem
      rcases List.mem_append.1 hmem with hm | hm
      · exact h1 hm
      · have : x = s.nextID := by simpa using hm
        omega

theorem upsertAll_fresh :
    ∀ (batch : List (Item × Nat)) (s : MemoryStore) (n : Nat),
      s.nextID = n + 1 →
      s.items.map (fun j => j.id) = List.range' 1 n →
      (∀ e ∈ s.guidIndex, e.1.2 ∈ s.items.map (fun j => j.guid)) →
      (∀ p ∈ batch, p.1.guid ∉ s.items.map (fun j => j.guid)) →
      (batch.map (fun p => p.1.guid)).Nodup →
      (upsertAll s batch).items.map (fun j => j.id) = List.range' 1 (n + batch.length) ∧
        (upsertAll s batch).items.map (fun j => j.guid) =
          s.items.map (fun j => j.guid) ++ batch.map (fun p => p.1.guid) := by
  intro batch
  induction batch with
  | nil =>
    intro s n h1 h2 h3 h4 h5
    constructor
    · simpa [upsertAll] using h2
    · simp [upsertAll]
  | cons p rest ih =>
    intro s n h1 h2 h3 h4 h5
    have hnotin : p.1.guid ∉ s.items.map (fun j => j.guid) := h4 p (by simp)
    have hstep : UpsertItem s p.1 p.2 = insertNew s p.1 p.2 := by
      unfold UpsertItem
      by_cases hg : p.1.guid ≠ ""
      · rw [if_pos hg]
        cases hlk : lookupKey s.guidIndex (p.1.feedurl, p.1.guid) with
        | none => rfl
        | some v =>
          obtain ⟨e, he, hek⟩ := lookupKey_mem _ _ _ hlk
          have hmem : e.1.2 ∈ s.items.map (fun j => j.guid) := h3 e he
          rw [hek] at hmem
          exact absurd hmem hnotin
      · rw [if_neg hg]
    have hfold : upsertAll s (p :: rest) = upsertAll (insertNew s p.1 p.2) rest := by
      show upsertAll (UpsertItem s p.1 p.2) rest = _
      rw [hstep]
    rw [hfold]
    have hids : (insertNew s p.1 p.2).items.map (fun j => j.id) = List.range' 1 (n + 1) := by
      unfold insertNew
      simp only [List.map_append, h2, List.map_cons, List.map_nil]
      rw [List.range'_concat]
      simp [h1, Nat.add_comm]
    have hguids : (insertNew s p.1 p.2).items.map (fun j => j.guid) =
        s.items.map (fun j => j.guid) ++ [p.1.guid] := by
      unfold insertNew
      simp
    have hnext : (insertNew s p.1 p.2).nextID = (n + 1) + 1 := by
      unfold insertNew
      simp [h1]
    have hidx : ∀ e ∈ (insertNew s p.1 p.2).guidIndex,
        e.1.2 ∈ (insertNew s p.1 p.2).items.map (fun j => j.guid) := by
      intro e he
      rw [hguids]
      unfold insertNew at he
      by_cases hg : p.1.guid ≠ ""
      · simp only [if_pos hg] at he
        rcases List.mem_cons.1 he with he2 | he2
        · subst he2
          simp
        · exact List.mem_append.2 (Or.inl (h3 e he2))
      · simp only [if_neg hg] at he
        exact List.mem_append.2 (Or.inl (h3 e he))
    have hnd2 : p.1.guid ∉ rest.map (fun q => q.1.guid) ∧
        (rest.map (fun q => q.1.guid)).Nodup := by
      simpa [List.nodup_cons] using h5
    have hrest : ∀ q ∈ rest, q.1.guid ∉ (insertNew s p.1 p.2).items.map (fun j => j.guid) := by
      intro q hq
      rw [hguids]
      intro hmem
      rcases List.mem_append.1 hmem with hm | hm
      · exact h4 q (by simp [hq]) hm
      · have hqp : q.1.guid = p.1.guid := by simpa using hm
        exact hnd2.1 (List.mem_map.2 ⟨q, hq, hqp⟩)
    obtain ⟨ha, hb⟩ := ih (insertNew s p.1 p.2) (n + 1) hnext hids hidx hrest hnd2.2
    constructor
    · rw [ha]
      congr 1
      simp
      omega
    · rw [hb, hguids]
      simp

/-!  Claim theorems.  -/

/-- C3: for every item, the derived read state `Read()` is true exactly
when the `read-at` timestamp is non-zero, and the read state is a function
of `read-at` alone — two items agreeing on `read-at` agree on `Read()`,
whatever their other fields, so no independent read/unread field exists. -/
theorem C3_read_derived :
    ∀ i : Item, (i.Read = true ↔ i.readAt ≠ 0) ∧
      ∀ j : Item, i.readAt = j.readAt → i.Read = j.Read := by
  intro i
  constructor
  · simp [Item.Read]
  · intro j h
    simp [Item.Read, h]

/-- Witness for C3 at two concrete items differing in every field except
`read-at`. -/
theorem C3_witness :
    (mkItem 1 "A" "f1" "g1" 7 3 false).readAt = (mkItem 2 "B" "f2" "g2" 7 9 true).readAt ∧
      (mkItem 1 "A" "f1" "g1" 7 3 false).Read = (mkItem 2 "B" "f2" "g2" 7 9 true).Read :=
  ⟨by decide, (C3_read_derived (mkItem 1 "A" "f1" "g1" 7 3 false)).2
    (mkItem 2 "B" "f2" "g2" 7 9 true) (by decide)⟩

/-- C8: on both modelled backends, a second `BeginBatch` without an
intervening `EndBatch` fails with `InvalidStateError`. -/
theorem C8_batch_nesting :
    (∀ s t : MemoryStore, BeginBatch s = .ok t → BeginBatch t = .error .invalidStateError) ∧
      (∀ s t : SQLiteStore, s.beginBatch = .ok t → t.beginBatch = .error .invalidStateError) := by
  constructor
  · intro s t h
    unfold BeginBatch at h ⊢
    split at h
    · exact absurd h (by simp)
    · injection h with h
      subst h
      simp
  · intro s t h
    unfold SQLiteStore.beginBatch at h ⊢
    split at h
    · exact absurd h (by simp)
    · injection h with h
      subst h
      simp

/-- Witness for C8: opening a batch on each fresh backend and then
opening again fails with `InvalidStateError`. -/
theorem C8_witness :
    BeginBatch { NewMemoryStore with batchOpen := true } = .error .invalidStateError ∧
      SQLiteStore.beginBatch { committed := [], pending := [], batchOpen := true } =
        .error .invalidStateError :=
  ⟨C8_batch_nesting.1 NewMemoryStore { NewMemoryStore with batchOpen := true } rfl,
   C8_batch_nesting.2 { committed := [], pending := [], batchOpen := false }
     { committed := [], pending := [], batchOpen := true } rfl⟩

/-- C4 counterexample: `MarkRead` and `MarkUnread` are not among the
methods of the backend-agnostic `Store` interface — the claim places them
in the storage contract, but the Go interface declares neither. -/
theorem C4_counterexample :
    ¬ ("MarkRead" ∈ storeInterfaceMethods ∧ "MarkUnread" ∈ storeInterfaceMethods) := by
  decide

/-- C4 (amended): `MarkRead(id)` and `MarkUnread(id)` are provided by the
memory store backend — though absent from the `Store` interface — as
idempotent absolute setters of the read state: on success every record
with the identifier is read (resp. unread) and repeating the call returns
the same store unchanged; for an identifier no record carries they fail
with `NotFoundError`. -/
theorem C4_markread_markunread :
    ∀ (s : MemoryStore) (itemId now now' : Nat), now ≠ 0 →
      (hasId s itemId = false →
        MarkRead s itemId now = .error .notFoundError ∧
          MarkUnread s itemId = .error .notFoundError) ∧
      (∀ t, MarkRead s itemId now = .ok t →
        (∀ j ∈ t.items, j.id = itemId → j.Read = true) ∧
          MarkRead t itemId now' = .ok t) ∧
      (∀ t, MarkUnread s itemId = .ok t →
        (∀ j ∈ t.items, j.id = itemId → j.Read = false) ∧
          MarkUnread t itemId = .ok t) := by
  intro s itemId now now' hnow
  refine ⟨?_, ?_, ?_⟩
  · intro habsent
    unfold MarkRead MarkUnread
    rw [habsent]
    simp
  · intro t ht
    unfold MarkRead at ht
    by_cases hpresent : hasId s itemId
    case neg =>
      rw [if_neg (by simp [hpresent])] at ht
      exact absurd ht (by simp)
    rw [if_pos (by simp [hpresent])] at ht
    injection ht with ht
    subst ht
    set f : Item → Item := fun j => if j.id = itemId then
      (if j.readAt = 0 then { j with readAt := now } else j) else j with hf
    have hid_f : ∀ j : Item, (f j).id = j.id := by
      intro j
      by_cases hjid : j.id = itemId
      · by_cases hz : j.readAt = 0 <;> simp [hf, hjid, hz]
      · simp [hf, hjid]
    have hread : ∀ j ∈ s.items.map f, j.id = itemId → j.Read = true := by
      intro j hj hjid
      obtain ⟨j0, hj0, rfl⟩ := List.mem_map.1 hj
      rw [hid_f j0] at hjid
      by_cases hz : j0.readAt = 0
      · simp [hf, hjid, hz, Item.Read, hnow]
      · simp [hf, hjid, hz, Item.Read]
    have hpres2 : hasId (MemoryStore.mk (s.items.map f) s.guidIndex s.nextID s.batchOpen)
        itemId = true := by
      unfold hasId at hpresent ⊢
      simp only [List.any_map]
      have hfun : ((fun j : Item => j.id == itemId) ∘ f) = fun j : Item => j.id == itemId := by
        funext j
        simp only [Function.comp_apply, hid_f j]
      rw [hfun]
      exact hpresent
    refine ⟨hread, ?_⟩
    unfold MarkRead
    rw [if_pos (by simp [hpres2])]
    have hptw : ∀ j ∈ s.items.map f, (if j.id = itemId then
        (if j.readAt = 0 then { j with readAt := now' } else j) else j) = j := by
      intro j hj
      by_cases hjid : j.id = itemId
      · have hr := hread j hj hjid
        have hz : ¬ j.readAt = 0 := by
          intro hzz
          simp [Item.Read, hzz] at hr
        simp [hjid, hz]
      · simp [hjid]
    have hfix : (s.items.map f).map (fun j => if j.id = itemId then
        (if j.readAt = 0 then { j with readAt := now' } else j) else j) = s.items.map f :=
      (List.map_congr_left hptw).trans (List.map_id _)
    rw [hfix]
  · intro t ht
    unfold MarkUnread at ht
    by_cases hpresent : hasId s itemId
    case neg =>
      rw [if_neg (by simp [hpresent])] at ht
      exact absurd ht (by simp)
    rw [if_pos (by simp [hpresent])] at ht
    injection ht with ht
    subst ht
    set f : Item → Item := fun j => if j.id = itemId then { j with readAt := 0 } else j with hf
    have hid_f : ∀ j : Item, (f j).id = j.id := by
      intro j
      by_cases hjid : j.id = itemId <;> simp [hf, hjid]
    have hread : ∀ j ∈ s.items.map f, j.id = itemId → j.Read = false := by
      intro j hj hjid
      obtain ⟨j0, hj0, rfl⟩ := List.mem_map.1 hj
      rw [hid_f j0] at hjid
      simp [hf, hjid, Item.Read]
    have hpres2 : hasId (MemoryStore.mk (s.items.map f) s.guidIndex s.nextID s.batchOpen)
        itemId = true := by
      unfold hasId at hpresent ⊢
      simp only [List.any_map]
      have hfun : ((fun j : Item => j.id == itemId) ∘ f) = fun j : Item => j.id == itemId := by
        funext j
        simp only [Function.comp_apply, hid_f j]
      rw [hfun]
      exact hpresent
    refine ⟨hread, ?_⟩
    unfold MarkUnread
    rw [if_pos (by simp [hpres2])]
    have hptw : ∀ j ∈ s.items.map f,
        (if j.id = itemId then { j with readAt := 0 } else j) = j := by
      intro j hj
      by_cases hjid : j.id = itemId
      · have hr := hread j hj hjid
        have hz : j.readAt = 0 := by
          by_contra hzz
          simp [Item.Read, hzz] at hr
        rw [if_pos hjid, ← hz]
      · simp [hjid]
    have hfix : (s.items.map f).map
        (fun j => if j.id = itemId then { j with readAt := 0 } else j) = s.items.map f :=
      (List.map_congr_left hptw).trans (List.map_id _)
    rw [hfix]

/-- Witness for C4 (amended): on the concrete one-item store, marking an
absent identifier fails, marking the present record read at time 5 is
idempotent, and so is marking it unread. -/
theorem C4_witness :
    (5 : Nat) ≠ 0 ∧
      MarkRead wStore 9 5 = .error .notFoundError ∧
      MarkRead wStoreRead 1 7 = .ok wStoreRead ∧
      MarkUnread wStoreUnread 1 = .ok wStoreUnread :=
  ⟨by decide,
   ((C4_markread_markunread wStore 9 5 7 (by decide)).1 (by decide)).1,
   ((C4_markread_markunread wStore 1 5 7 (by decide)).2.1 wStoreRead (by decide)).2,
   ((C4_markread_markunread wStore 1 5 7 (by decide)).2.2 wStoreUnread (by decide)).2⟩

/-- C2: `GetAllItems("desc")` returns a permutation of the collection
sorted by `published-at` descending with identifier descending on ties;
every other ordering token — including the default `"asc"`, which is
`constants.DefaultOrdering` — returns a permutation sorted ascending with
identifier ascending on ties, and coincides with `GetAllItems("asc")`. -/
theorem C2_ordering_policy :
    DefaultOrdering = AscendingOrdering ∧ AscendingOrdering = "asc" ∧
      ∀ (s : MemoryStore) (ordering : String),
        (ordering = "desc" →
          (GetAllItems s ordering).Sorted descRel ∧ (GetAllItems s ordering).Perm s.items) ∧
        (ordering ≠ "desc" →
          (GetAllItems s ordering).Sorted ascRel ∧ (GetAllItems s ordering).Perm s.items ∧
            GetAllItems s ordering = GetAllItems s AscendingOrdering) := by
  refine ⟨rfl, rfl, ?_⟩
  intro s ordering
  constructor
  · intro h
    unfold GetAllItems
    rw [if_pos (show ordering = DescendingOrdering from h)]
    exact ⟨List.sorted_insertionSort descRel s.items, List.perm_insertionSort descRel s.items⟩
  · intro h
    unfold GetAllItems
    rw [if_neg (show ¬ ordering = DescendingOrdering from h),
      if_neg (by decide : ¬ AscendingOrdering = DescendingOrdering)]
    exact ⟨List.sorted_insertionSort ascRel s.items, List.perm_insertionSort ascRel s.items, rfl⟩

/-- Witness for C2 on the concrete three-item store: the descending view
is sorted descending and permutes the collection; an unrecognized token
behaves like `"asc"`. -/
theorem C2_witness :
    (GetAllItems delStore "desc").Sorted descRel ∧
      (GetAllItems delStore "desc").Perm delStore.items ∧
      GetAllItems delStore "unrecognized" = GetAllItems delStore AscendingOrdering :=
  ⟨(((C2_ordering_policy.2.2 delStore "desc").1 rfl)).1,
   (((C2_ordering_policy.2.2 delStore "desc").1 rfl)).2,
   ((C2_ordering_policy.2.2 delStore "unrecognized").2 (by decide)).2.2⟩

/-- C7: `MarkAllRead` keeps the collection's length and, record by
record, sets `read-at` to the current time on records whose `read-at` was
zero — leaving every other field unchanged — and leaves records whose
`read-at` was non-zero entirely unchanged (their `read-at` is not
bumped). -/
theorem C7_mark_all_read :
    ∀ (s : MemoryStore) (now : Nat) (t : MemoryStore), MarkAllRead s now = .ok t →
      t.items.length = s.items.length ∧
        ∀ (k : Nat) (hk : k < s.items.length) (hk2 : k < t.items.length),
          (s.items[k].readAt = 0 → t.items[k] = { s.items[k] with readAt := now }) ∧
            (s.items[k].readAt ≠ 0 → t.items[k] = s.items[k]) := by
  intro s now t ht
  unfold MarkAllRead at ht
  injection ht with ht
  subst ht
  refine ⟨by simp, ?_⟩
  intro k hk hk2
  constructor
  · intro hz
    simp [List.getElem_map, hz]
  · intro hz
    simp [List.getElem_map, hz]

/-- Witness for C7: marking the concrete two-item store (one unread, one
read at 4) all-read at time 9 yields `tMarked`, of unchanged length. -/
theorem C7_witness :
    MarkAllRead readStore 9 = .ok tMarked ∧ tMarked.items.length = readStore.items.length :=
  ⟨by decide, (C7_mark_all_read readStore 9 tMarked (by decide)).1⟩

/-- C5: `DeleteByFeedURL` never returns an error — a zero-match call is a
no-op success leaving the records (and the identifier counter) untouched —
and the surviving collection counts each record as before unless the
record's feed URL matches and it is deletable (either favourites are
included or it is not a favourite), in which case all its copies are
removed. -/
theorem C5_delete_by_feedurl :
    ∀ (s : MemoryStore) (url : String) (inc : Bool),
      (∀ e, DeleteByFeedURL s url inc ≠ .error e) ∧
        ∀ t, DeleteByFeedURL s url inc = .ok t →
          (∀ j : Item, t.items.count j =
            if j.feedurl = url ∧ (inc = true ∨ j.favourite = false) then 0
            else s.items.count j) ∧
            (s.items.all (fun j => !(j.feedurl == url)) = true →
              t.items = s.items ∧ t.nextID = s.nextID ∧ t.batchOpen = s.batchOpen) := by
  intro s url inc
  constructor
  · intro e
    unfold DeleteByFeedURL
    simp
  · intro t ht
    unfold DeleteByFeedURL at ht
    injection ht with ht
    subst ht
    constructor
    · intro j
      rw [show (MemoryStore.mk
          (s.items.filter fun j => !(j.feedurl == url && (inc || !j.favourite)))
          (s.guidIndex.filter fun e =>
            (s.items.filter fun j => !(j.feedurl == url && (inc || !j.favourite))).any
              fun j => j.id == e.2)
          s.nextID s.batchOpen).items =
        s.items.filter fun j => !(j.feedurl == url && (inc || !j.favourite)) from rfl]
      rw [count_filter_eq]
      by_cases hmatch : j.feedurl = url ∧ (inc = true ∨ j.favourite = false)
      · rw [if_pos hmatch]
        have hb : (!(j.feedurl == url && (inc || !j.favourite))) = false := by
          obtain ⟨h1, h2⟩ := hmatch
          rcases h2 with h2 | h2 <;> simp [h1, h2]
        rw [hb]
        simp
      · rw [if_neg hmatch]
        have hb : (!(j.feedurl == url && (inc || !j.favourite))) = true := by
          by_cases h1 : j.feedurl = url
          · by_cases h2 : inc
            · exact absurd ⟨h1, Or.inl h2⟩ hmatch
            · by_cases h3 : j.favourite
              · simp [h1, h2, h3]
              · exact absurd ⟨h1, Or.inr (by simp [h3])⟩ hmatch
          · simp [h1]
        rw [hb]
        simp
    · intro hnone
      have hall : ∀ j ∈ s.items, (!(j.feedurl == url && (inc || !j.favourite))) = true := by
        intro j hj
        have hju := List.all_eq_true.1 hnone j hj
        have : (j.feedurl == url) = false := by
          simp at hju
          simp [hju]
        simp [this]
      exact ⟨List.filter_eq_self.2 hall, rfl, rfl⟩

/-- Witness for C5 on the `TestDeleteByFeedURL` scenario: deleting
`feed1` without favourites yields `tDel`; the plain `feed1` record is
gone, the favourite `feed1` record keeps its count. -/
theorem C5_witness :
    DeleteByFeedURL delStore "feed1" false = .ok tDel ∧
      tDel.items.count (mkItem 1 "Item 1" "feed1" "g1" 0 1 false) = 0 ∧
      tDel.items.count (mkItem 3 "Item 3" "feed1" "g3" 0 3 true) =
        delStore.items.count (mkItem 3 "Item 3" "feed1" "g3" 0 3 true) := by
  refine ⟨by decide, ?_, ?_⟩
  · have h := (((C5_delete_by_feedurl delStore "feed1" false).2 tDel (by decide)).1
      (mkItem 1 "Item 1" "feed1" "g1" 0 1 false))
    rw [if_pos (by decide)] at h
    exact h
  · have h := (((C5_delete_by_feedurl delStore "feed1" false).2 tDel (by decide)).1
      (mkItem 3 "Item 3" "feed1" "g3" 0 3 true))
    rw [if_neg (by decide)] at h
    exact h

/-- C1: on any store whose identifiers are below the counter and which
has not yet seen a given non-empty (GUID, feed URL) key — neither among
its records nor in its dedup index — upserting two candidates carrying
that key leaves exactly one record with the key in `GetAllItems`; that
record carries the second candidate's title but the identifier and
`created-at` assigned by the first upsert, and overall exactly one record
was added. -/
theorem C1_upsert_dedup :
    ∀ (s : MemoryStore) (i1 i2 : Item) (n1 n2 : Nat),
      i1.guid ≠ "" → i2.guid = i1.guid → i2.feedurl = i1.feedurl →
      (∀ j ∈ s.items, j.id < s.nextID) →
      lookupKey s.guidIndex (i1.feedurl, i1.guid) = none →
      (∀ j ∈ s.items, ¬ (j.feedurl = i1.feedurl ∧ j.guid = i1.guid)) →
      ∀ ordering,
        ((GetAllItems (UpsertItem (UpsertItem s i1 n1) i2 n2) ordering).filter
          (fun j => j.feedurl == i1.feedurl && j.guid == i1.guid)).length = 1 ∧
        (∀ j ∈ GetAllItems (UpsertItem (UpsertItem s i1 n1) i2 n2) ordering,
          j.feedurl = i1.feedurl ∧ j.guid = i1.guid →
          j.title = i2.title ∧ j.id = s.nextID ∧ j.createdAt = n1) ∧
        (GetAllItems (UpsertItem (UpsertItem s i1 n1) i2 n2) ordering).length =
          s.items.length + 1 := by
  intro s i1 i2 n1 n2 hg hg2 hf hid hlook hfresh ordering
  have h1 : UpsertItem s i1 n1 = insertNew s i1 n1 := by
    unfold UpsertItem
    rw [if_pos hg, hlook]
  have hitems1 : (UpsertItem s i1 n1).items =
      s.items ++ [{ i1 with id := s.nextID, createdAt := n1 }] := by
    rw [h1]
    rfl
  have hidx1 : (UpsertItem s i1 n1).guidIndex =
      ((i1.feedurl, i1.guid), s.nextID) :: s.guidIndex := by
    rw [h1]
    unfold insertNew
    simp [hg]
  have hlook2 : lookupKey (UpsertItem s i1 n1).guidIndex (i2.feedurl, i2.guid) =
      some s.nextID := by
    rw [hidx1]
    unfold lookupKey
    rw [if_pos (by rw [hg2, hf])]
  set u1 := UpsertItem s i1 n1 with hu1
  have h2 : UpsertItem u1 i2 n2 =
      MemoryStore.mk
        (u1.items.map (fun j => if j.id = s.nextID then mergeInto j i2 else j))
        u1.guidIndex u1.nextID u1.batchOpen := by
    unfold UpsertItem
    rw [if_pos (by rw [hg2]; exact hg), hlook2]
  have hmap : ((s.items ++ [{ i1 with id := s.nextID, createdAt := n1 }]).map
      (fun j : Item => if j.id = s.nextID then mergeInto j i2 else j)) =
      s.items ++ [mergeInto { i1 with id := s.nextID, createdAt := n1 } i2] := by
    rw [List.map_append]
    congr 1
    · have hfix : ∀ a ∈ s.items, (if a.id = s.nextID then mergeInto a i2 else a) = id a := by
        intro j hj
        simp only [id]
        rw [if_neg (Nat.ne_of_lt (hid j hj))]
      exact (List.map_congr_left hfix).trans (List.map_id _)
    · simp
  have hfinal : (UpsertItem u1 i2 n2).items =
      s.items ++ [mergeInto { i1 with id := s.nextID, createdAt := n1 } i2] := by
    rw [h2]
    show u1.items.map _ = _
    rw [hitems1, hmap]
  have hmfeed : (mergeInto { i1 with id := s.nextID, createdAt := n1 } i2).feedurl =
      i1.feedurl := rfl
  have hmguid : (mergeInto { i1 with id := s.nextID, createdAt := n1 } i2).guid =
      i1.guid := rfl
  have hperm := getAllItems_perm (UpsertItem u1 i2 n2) ordering
  rw [hfinal] at hperm
  refine ⟨?_, ?_, ?_⟩
  · rw [(hperm.filter _).length_eq, List.filter_append]
    have h0 : s.items.filter (fun j => j.feedurl == i1.feedurl && j.guid == i1.guid) = [] := by
      refine List.filter_eq_nil_iff.2 ?_
      intro j hj hp
      refine hfresh j hj ?_
      simpa using hp
    rw [h0]
    simp [hmfeed, hmguid]
  · intro j hj hjkey
    have hj2 : j ∈ s.items ++ [mergeInto { i1 with id := s.nextID, createdAt := n1 } i2] :=
      hperm.mem_iff.1 hj
    rcases List.mem_append.1 hj2 with hj3 | hj3
    · exact absurd hjkey (hfresh j hj3)
    · have hje : j = mergeInto { i1 with id := s.nextID, createdAt := n1 } i2 := by
        simpa using hj3
      rw [hje]
      exact ⟨rfl, rfl, rfl⟩
  · rw [hperm.length_eq, List.length_append]
    rfl

/-- Witness for C1: upserting candidates with key `("feed", "gX")` and
titles `"A"` then `"B"` into the empty store leaves exactly one record in
the ascending view. -/
theorem C1_witness :
    ((GetAllItems (UpsertItem (UpsertItem NewMemoryStore
        (mkItem 0 "A" "feed" "gX" 0 5 false) 100)
        (mkItem 0 "B" "feed" "gX" 0 6 false) 200) "asc").filter
      (fun j => j.feedurl == "feed" && j.guid == "gX")).length = 1 ∧
      (GetAllItems (UpsertItem (UpsertItem NewMemoryStore
        (mkItem 0 "A" "feed" "gX" 0 5 false) 100)
        (mkItem 0 "B" "feed" "gX" 0 6 false) 200) "asc").length =
        NewMemoryStore.items.length + 1 := by
  have h := C1_upsert_dedup NewMemoryStore
    (mkItem 0 "A" "feed" "gX" 0 5 false) (mkItem 0 "B" "feed" "gX" 0 6 false) 100 200
    (by decide) (by decide) (by decide) (by decide) (by decide) (by decide) "asc"
  exact ⟨h.1, h.2.2⟩

/-- C6: starting from the empty store, upserting N candidates with N
pairwise-distinct GUIDs assigns identifiers 1..N in call order (the
records also keep the batch's GUID order); and on any store with distinct
in-range identifiers, the identifier of a record removed by
`DeleteByFeedURL` is never carried by any record after any number of
subsequent upserts — freed identifiers are not reassigned. -/
theorem C6_identifier_stability :
    (∀ batch : List (Item × Nat),
      (batch.map (fun p => p.1.guid)).Nodup →
        (upsertAll NewMemoryStore batch).items.map (fun j => j.id) =
          List.range' 1 batch.length ∧
          (upsertAll NewMemoryStore batch).items.map (fun j => j.guid) =
            batch.map (fun p => p.1.guid)) ∧
      (∀ (s : MemoryStore) (url : String) (incFav : Bool) (t : MemoryStore) (d : Item)
          (batch : List (Item × Nat)),
        (∀ j ∈ s.items, j.id < s.nextID) →
        (s.items.map (fun j => j.id)).Nodup →
        DeleteByFeedURL s url incFav = .ok t →
        d ∈ s.items → d ∉ t.items →
        ∀ k ∈ (upsertAll t batch).items, k.id ≠ d.id) := by
  constructor
  · intro batch hnd
    have h := upsertAll_fresh batch NewMemoryStore 0 rfl rfl
      (by intro e he; exact absurd he (by simp [NewMemoryStore]))
      (by intro q hq; simp [NewMemoryStore]) hnd
    simpa [NewMemoryStore] using h
  · intro s url incFav t d batch hid hnd hdel hdin hdout
    unfold DeleteByFeedURL at hdel
    injection hdel with hdel
    subst hdel
    have hdid : d.id ∉ ((s.items.filter
        (fun j => !(j.feedurl == url && (incFav || !j.favourite)))).map (fun j => j.id)) := by
      intro hmem
      obtain ⟨k, hk, hkid⟩ := List.mem_map.1 hmem
      have hk2 : k ∈ s.items := List.mem_of_mem_filter hk
      have hkd : k = d := List.inj_on_of_nodup_map hnd hk2 hdin hkid
      exact hdout (hkd ▸ hk)
    have habs := upsertAll_id_absent batch
      (MemoryStore.mk
        (s.items.filter (fun j => !(j.feedurl == url && (incFav || !j.favourite))))
        (s.guidIndex.filter fun e =>
          (s.items.filter fun j => !(j.feedurl == url && (incFav || !j.favourite))).any
            fun j => j.id == e.2)
        s.nextID s.batchOpen)
      d.id hdid (hid d hdin)
    intro k hk hkid
    exact habs (List.mem_map.2 ⟨k, hk, hkid⟩)

/-- Witness for C6: two distinct-GUID upserts into the empty store get
identifiers 1 and 2; after deleting the plain `feed1` record (identifier
1) from the concrete store and upserting a fresh candidate, the surviving
`feed2` record does not carry identifier 1. -/
theorem C6_witness :
    (upsertAll NewMemoryStore
      [(mkItem 0 "A" "f" "gA" 0 1 false, 10),
       (mkItem 0 "B" "f" "gB" 0 2 false, 20)]).items.map (fun j => j.id) =
      List.range' 1 2 ∧
      (mkItem 2 "Item 2" "feed2" "g2" 0 2 true).id ≠
        (mkItem 1 "Item 1" "feed1" "g1" 0 1 false).id := by
  constructor
  · exact (C6_identifier_stability.1
      [(mkItem 0 "A" "f" "gA" 0 1 false, 10), (mkItem 0 "B" "f" "gB" 0 2 false, 20)]
      (by decide)).1
  · exact C6_identifier_stability.2 delStore "feed1" false tDel
      (mkItem 1 "Item 1" "feed1" "g1" 0 1 false)
      [(mkItem 0 "N" "f9" "g9" 0 7 false, 30)]
      (by decide) (by decide) (by decide) (by decide) (by decide)
      (mkItem 2 "Item 2" "feed2" "g2" 0 2 true) (by decide)

theorem lookupFs_mem :
    ∀ (fs : List (String × GoConfig)) (p : String) (c : GoConfig),
      lookupFs fs p = some c → (p, c) ∈ fs := by
  intro fs p c
  induction fs with
  | nil => intro h; exact absurd h (by simp [lookupFs])
  | cons e rest ih =>
    intro h
    unfold lookupFs at h
    by_cases hep : e.1 = p
    · rw [if_pos hep] at h
      injection h with h
      have he : e = (p, c) := by
        cases e
        simp_all
      rw [← he]
      exact List.mem_cons_self e rest
    · rw [if_neg hep] at h
      exact List.mem_cons.2 (Or.inr (ih h))

theorem potential_mono_aux (E : Env) :
    ∀ (l : List (String × GoConfig)) (v v' : List String), v ⊆ v' →
      ((l.filter fun e => absNorm E.cwd e.1 ∉ v').map
        (fun e => 2 + e.2.includes.length)).sum ≤
      ((l.filter fun e => absNorm E.cwd e.1 ∉ v).map
        (fun e => 2 + e.2.includes.length)).sum := by
  intro l v v' hsub
  refine List.Sublist.sum_le_sum ?_ (by intro a _; exact Nat.zero_le a)
  refine List.Sublist.map _ ?_
  refine List.monotone_filter_right _ ?_
  intro e he
  simp only [decide_eq_true_eq] at he ⊢
  exact fun hav => he (hsub hav)

theorem potential_mono (E : Env) (v v' : List String) (hsub : v ⊆ v') :
    loadPotential E v' ≤ loadPotential E v := by
  unfold loadPotential
  exact potential_mono_aux E E.fs v v' hsub

theorem potential_drop_aux (E : Env) :
    ∀ (l : List (String × GoConfig)) (p : String) (c : GoConfig) (v : List String),
      (p, c) ∈ l → absNorm E.cwd p ∉ v →
      ((l.filter fun e => absNorm E.cwd e.1 ∉ (absNorm E.cwd p :: v)).map
        (fun e => 2 + e.2.includes.length)).sum + 2 + c.includes.length ≤
      ((l.filter fun e => absNorm E.cwd e.1 ∉ v).map
        (fun e => 2 + e.2.includes.length)).sum := by
  intro l p c v hmem hnv
  induction l with
  | nil => exact absurd hmem (by simp)
  | cons e rest ih =>
    rw [List.filter_cons, List.filter_cons]
    rcases List.mem_cons.1 hmem with he | he
    · rw [← he]
      rw [if_neg (by simp :
            ¬ (decide (absNorm E.cwd (p, c).1 ∉ (absNorm E.cwd p :: v)) = true)),
          if_pos (show decide (absNorm E.cwd (p, c).1 ∉ v) = true by simpa using hnv)]
      have hmono := potential_mono_aux E rest v (absNorm E.cwd p :: v)
        (by intro a ha; exact List.mem_cons.2 (Or.inr ha))
      simp only [List.map_cons, List.sum_cons]
      omega
    · have ihr := ih he
      by_cases hw : absNorm E.cwd e.1 ∉ v
      · rw [if_pos (show decide (absNorm E.cwd e.1 ∉ v) = true by simpa using hw)]
        by_cases hw2 : absNorm E.cwd e.1 ∉ (absNorm E.cwd p :: v)
        · rw [if_pos (show decide (absNorm E.cwd e.1 ∉ (absNorm E.cwd p :: v)) = true by
              simpa using hw2)]
          simp only [List.map_cons, List.sum_cons]
          omega
        · rw [if_neg (show ¬ decide (absNorm E.cwd e.1 ∉ (absNorm E.cwd p :: v)) = true by
              simpa using hw2)]
          simp only [List.map_cons, List.sum_cons]
          omega
      · have hw2 : ¬ absNorm E.cwd e.1 ∉ (absNorm E.cwd p :: v) := by
          intro hcon
          exact hw (fun hv2 => hcon (List.mem_cons.2 (Or.inr hv2)))
        rw [if_neg (show ¬ decide (absNorm E.cwd e.1 ∉ (absNorm E.cwd p :: v)) = true by
              simpa using hw2),
            if_neg (show ¬ decide (absNorm E.cwd e.1 ∉ v) = true by simpa using hw)]
        exact ihr

theorem potential_drop (E : Env) (p : String) (c : GoConfig) (v : List String)
    (hread : lookupFs E.fs p = some c) (hnv : absNorm E.cwd p ∉ v) :
    loadPotential E (absNorm E.cwd p :: v) + 2 + c.includes.length ≤ loadPotential E v := by
  unfold loadPotential
  exact potential_drop_aux E E.fs p c v (lookupFs_mem E.fs p c hread) hnv

theorem loadGo_visited_mono :
    ∀ (fuel : Nat) (E : Env),
      (∀ v p c v', loadGo E fuel (.file v p) = .ok (c, v') →
        v ⊆ v' ∧ absNorm E.cwd p ∈ v') ∧
      (∀ v dir paths base c v', loadGo E fuel (.incs v dir paths base) = .ok (c, v') →
        v ⊆ v') := by
  intro fuel
  induction fuel with
  | zero =>
    intro E
    constructor
    · intro v p c v' h
      exact absurd h (by simp [loadGo])
    · intro v dir paths base c v' h
      exact absurd h (by simp [loadGo])
  | succ n ih =>
    intro E
    constructor
    · intro v p c v' h
      simp only [loadGo] at h
      by_cases hvis : absNorm E.cwd p ∈ v
      · rw [if_pos hvis] at h
        exact absurd h (by simp)
      · rw [if_neg hvis] at h
        split at h
        · exact absurd h (by simp)
        · rename_i cfg hfs
          by_cases hinc : cfg.includes = []
          · rw [if_pos hinc] at h
            injection h with h
            rw [Prod.mk.injEq] at h
            obtain ⟨hc, hv⟩ := h
            subst hv
            exact ⟨fun a ha => List.mem_cons.2 (Or.inr ha), List.mem_cons.2 (Or.inl rfl)⟩
          · rw [if_neg hinc] at h
            split at h
            · exact absurd h (by simp)
            · rename_i pr base v'' hrec
              injection h with h
              rw [Prod.mk.injEq] at h
              obtain ⟨hc, hv⟩ := h
              subst hv
              have hsub := (ih E).2 _ _ _ _ _ _ hrec
              exact ⟨fun a ha => hsub (List.mem_cons.2 (Or.inr ha)),
                hsub (List.mem_cons.2 (Or.inl rfl))⟩
    · intro v dir paths base c v' h
      cases paths with
      | nil =>
        simp only [loadGo] at h
        injection h with h
        rw [Prod.mk.injEq] at h
        obtain ⟨hc, hv⟩ := h
        subst hv
        exact fun a ha => ha
      | cons p rest =>
        simp only [loadGo] at h
        split at h
        · exact absurd h (by simp)
        · rename_i pr c1 v1 hrec
          have h1 := (ih E).1 _ _ _ _ hrec
          have h2 := (ih E).2 _ _ _ _ _ _ h
          exact fun a ha => h2 (h1.1 ha)

theorem loadGo_file_visited (E : Env) (n : Nat) (v : List String) (p : String)
    (h : absNorm E.cwd p ∈ v) :
    loadGo E (n + 1) (.file v p) = .error .includeLoop := by
  simp [loadGo, h]

theorem loadGo_file_leaf (E : Env) (n : Nat) (v : List String) (p : String) (cfg : GoConfig)
    (h1 : absNorm E.cwd p ∉ v) (h2 : lookupFs E.fs p = some cfg) (h3 : cfg.includes = []) :
    loadGo E (n + 1) (.file v p) = .ok (cfg, absNorm E.cwd p :: v) := by
  simp [loadGo, h1, h2, h3]

theorem loadGo_file_step_ok (E : Env) (n : Nat) (v : List String) (p : String)
    (cfg b : GoConfig) (v' : List String)
    (h1 : absNorm E.cwd p ∉ v) (h2 : lookupFs E.fs p = some cfg) (h3 : cfg.includes ≠ [])
    (h4 : loadGo E n (.incs (absNorm E.cwd p :: v) (goDir p) cfg.includes zeroConfig) =
      .ok (b, v')) :
    loadGo E (n + 1) (.file v p) = .ok (mergeConfig b cfg, v') := by
  simp [loadGo, h1, h2, h3, h4]

theorem loadGo_file_step_err (E : Env) (n : Nat) (v : List String) (p : String)
    (cfg : GoConfig) (e : LoadErr)
    (h1 : absNorm E.cwd p ∉ v) (h2 : lookupFs E.fs p = some cfg) (h3 : cfg.includes ≠ [])
    (h4 : loadGo E n (.incs (absNorm E.cwd p :: v) (goDir p) cfg.includes zeroConfig) =
      .error e) :
    loadGo E (n + 1) (.file v p) = .error e := by
  simp [loadGo, h1, h2, h3, h4]

theorem loadGo_incs_nil (E : Env) (n : Nat) (v : List String) (dir : String) (base : GoConfig) :
    loadGo E (n + 1) (.incs v dir [] base) = .ok (base, v) :=
  rfl

theorem loadGo_incs_step_ok (E : Env) (n : Nat) (v : List String) (dir p : String)
    (rest : List String) (base c1 : GoConfig) (v1 : List String)
    (h : loadGo E n (.file v (resolveIncludePath dir p)) = .ok (c1, v1)) :
    loadGo E (n + 1) (.incs v dir (p :: rest) base) =
      loadGo E n (.incs v1 dir rest (mergeConfig base c1)) := by
  simp [loadGo, h]

theorem loadGo_incs_step_err (E : Env) (n : Nat) (v : List String) (dir p : String)
    (rest : List String) (base : GoConfig) (e : LoadErr)
    (h : loadGo E n (.file v (resolveIncludePath dir p)) = .error e) :
    loadGo E (n + 1) (.incs v dir (p :: rest) base) = .error (.wrapped p e) := by
  simp [loadGo, h]

theorem loadGo_incs_children :
    ∀ (fuel : Nat) (E : Env) (v : List String) (dir : String) (paths : List String)
      (base c : GoConfig) (v' : List String),
      loadGo E fuel (.incs v dir paths base) = .ok (c, v') →
      ∀ q ∈ paths, ∃ (m : Nat) (v₁ : List String) (c₁ : GoConfig) (v₂ : List String),
        m < fuel ∧ v ⊆ v₁ ∧ loadGo E m (.file v₁ (resolveIncludePath dir q)) = .ok (c₁, v₂) := by
  intro fuel
  induction fuel with
  | zero =>
    intro E v dir paths base c v' h
    exact absurd h (by simp [loadGo])
  | succ n ih =>
    intro E v dir paths base c v' h q hq
    cases paths with
    | nil => exact absurd hq (by simp)
    | cons p rest =>
      simp only [loadGo] at h
      split at h
      · exact absurd h (by simp)
      · rename_i pr c1 v1 hrec
        rcases List.mem_cons.1 hq with hq1 | hq1
        · subst hq1
          exact ⟨n, v, c1, v1, Nat.lt_succ_self n, fun a ha => ha, hrec⟩
        · obtain ⟨m, w1, d1, w2, hm, hsub, hcall⟩ :=
            ih E v1 dir rest (mergeConfig base c1) c v' h q hq1
          have hv1 := (loadGo_visited_mono n E).1 _ _ _ _ hrec
          exact ⟨m, w1, d1, w2, Nat.lt_succ_of_lt hm,
            fun a ha => hsub (hv1.1 ha), hcall⟩

theorem loadGo_classify :
    ∀ (fuel : Nat) (E : Env), includeClosed E = true →
      (∀ v p, (lookupFs E.fs p).isSome = true → loadPotential E v < fuel →
        (∃ c v', loadGo E fuel (.file v p) = .ok (c, v')) ∨
        (∃ e, loadGo E fuel (.file v p) = .error e ∧ isIncludeLoopErr e = true)) ∧
      (∀ v dir paths base,
        (∀ q ∈ paths, (lookupFs E.fs (resolveIncludePath dir q)).isSome = true) →
        loadPotential E v + paths.length < fuel →
        (∃ c v', loadGo E fuel (.incs v dir paths base) = .ok (c, v')) ∨
        (∃ e, loadGo E fuel (.incs v dir paths base) = .error e ∧
          isIncludeLoopErr e = true)) := by
  intro fuel
  induction fuel with
  | zero =>
    intro E hclosed
    constructor
    · intro v p _ hf
      exact absurd hf (by omega)
    · intro v dir paths base _ hf
      exact absurd hf (by omega)
  | succ n ih =>
    intro E hclosed
    constructor
    · intro v p hread hfuel
      by_cases hvis : absNorm E.cwd p ∈ v
      · exact Or.inr ⟨.includeLoop, loadGo_file_visited E n v p hvis, rfl⟩
      · obtain ⟨cfg, hcfg⟩ := Option.isSome_iff_exists.1 hread
        by_cases hinc : cfg.includes = []
        · exact Or.inl ⟨cfg, _, loadGo_file_leaf E n v p cfg hvis hcfg hinc⟩
        · have hmem := lookupFs_mem E.fs p cfg hcfg
          have hch : ∀ q ∈ cfg.includes,
              (lookupFs E.fs (resolveIncludePath (goDir p) q)).isSome = true := by
            intro q hq
            have h1 := List.all_eq_true.1 hclosed (p, cfg) hmem
            exact List.all_eq_true.1 h1 q hq
          have hfuel2 : loadPotential E (absNorm E.cwd p :: v) + cfg.includes.length < n := by
            have hdrop := potential_drop E p cfg v hcfg hvis
            omega
          rcases (ih E hclosed).2 (absNorm E.cwd p :: v) (goDir p) cfg.includes zeroConfig
              hch hfuel2 with ⟨c1, v1, hok⟩ | ⟨e, herr, hloop⟩
          · exact Or.inl ⟨mergeConfig c1 cfg, v1,
              loadGo_file_step_ok E n v p cfg c1 v1 hvis hcfg hinc hok⟩
          · exact Or.inr ⟨e, loadGo_file_step_err E n v p cfg e hvis hcfg hinc herr, hloop⟩
    · intro v dir paths base hreads hfuel
      cases paths with
      | nil => exact Or.inl ⟨base, v, loadGo_incs_nil E n v dir base⟩
      | cons p rest =>
        have hfuel1 : loadPotential E v < n := by
          simp only [List.length_cons] at hfuel
          omega
        rcases (ih E hclosed).1 v (resolveIncludePath dir p) (hreads p (by simp))
            hfuel1 with ⟨c1, v1, hok⟩ | ⟨e, herr, hloop⟩
        · rw [loadGo_incs_step_ok E n v dir p rest base c1 v1 hok]
          have hsubv := (loadGo_visited_mono n E).1 _ _ _ _ hok
          have hfuel2 : loadPotential E v1 + rest.length < n := by
            have hmono := potential_mono E v v1 hsubv.1
            simp only [List.length_cons] at hfuel
            omega
          exact (ih E hclosed).2 v1 dir rest (mergeConfig base c1)
            (fun q hq => hreads q (by simp [hq])) hfuel2
        · refine Or.inr ⟨.wrapped p e,
            loadGo_incs_step_err E n v dir p rest base e herr, ?_⟩
          simpa [isIncludeLoopErr] using hloop

theorem loadGo_chain_nodup :
    ∀ (fuel : Nat) (E : Env) (v : List String) (p : String) (c : GoConfig)
      (v' l : List String),
      loadGo E fuel (.file v p) = .ok (c, v') → Chain E p l →
      (l.map (absNorm E.cwd)).Nodup ∧ ∀ a ∈ l.map (absNorm E.cwd), a ∉ v := by
  intro fuel
  induction fuel using Nat.strong_induction_on with
  | _ fuel ih =>
    intro E v p c v' l hok hchain
    match fuel, hok with
    | 0, hok => exact absurd hok (by simp [loadGo])
    | n + 1, hok =>
      have hvis : absNorm E.cwd p ∉ v := by
        by_contra hcon
        rw [loadGo_file_visited E n v p hcon] at hok
        exact absurd hok (by simp)
      cases hchain with
      | single =>
        constructor
        · simp
        · intro a ha
          simp only [List.map_cons, List.map_nil, List.mem_singleton] at ha
          rw [ha]
          exact hvis
      | cons hedge hchain2 =>
        rename_i q l2
        obtain ⟨cfg, hcfg, hqmem⟩ := hedge
        have hinc : cfg.includes ≠ [] := by
          intro hnil
          rw [hnil] at hqmem
          simp at hqmem
        have hrec : ∃ b v2, loadGo E n
            (.incs (absNorm E.cwd p :: v) (goDir p) cfg.includes zeroConfig) = .ok (b, v2) := by
          cases hres : loadGo E n
              (.incs (absNorm E.cwd p :: v) (goDir p) cfg.includes zeroConfig) with
          | error e =>
            rw [loadGo_file_step_err E n v p cfg e hvis hcfg hinc hres] at hok
            exact absurd hok (by simp)
          | ok pr =>
            obtain ⟨b, v2⟩ := pr
            exact ⟨b, v2, rfl⟩
        obtain ⟨b, v2, hrec⟩ := hrec
        obtain ⟨qinc, hqinc, hqres⟩ := List.mem_map.1 hqmem
        obtain ⟨m, v₁, c₁, v₂, hm, hsub, hcall⟩ :=
          loadGo_incs_children n E (absNorm E.cwd p :: v) (goDir p) cfg.includes
            zeroConfig b v2 hrec qinc hqinc
        rw [hqres] at hcall
        have hih := ih m (Nat.lt_succ_of_lt hm) E v₁ q c₁ v₂ l2 hcall hchain2
        constructor
        · simp only [List.map_cons]
          refine List.nodup_cons.2 ⟨?_, hih.1⟩
          intro hmem
          exact (hih.2 _ hmem) (hsub (List.mem_cons.2 (Or.inl rfl)))
        · intro a ha
          simp only [List.map_cons] at ha
          rcases List.mem_cons.1 ha with ha1 | ha1
          · rw [ha1]
            exact hvis
          · intro hav
            exact (hih.2 a ha1) (hsub (List.mem_cons.2 (Or.inr hav)))

theorem loadPotential_empty (E : Env) : loadPotential E [] < loadFuel E := by
  unfold loadPotential loadFuel
  have hfil : E.fs.filter (fun e => absNorm E.cwd e.1 ∉ ([] : List String)) = E.fs := by
    refine List.filter_eq_self.2 ?_
    intro a _
    simp
  rw [hfil]
  have hsum : ∀ l : List (String × GoConfig),
      ((l.map fun e => 2 + e.2.includes.length)).sum ≤
        2 * l.length + (l.map fun e => e.2.includes.length).sum := by
    intro l
    induction l with
    | nil => simp
    | cons e rest ih =>
      simp only [List.map_cons, List.sum_cons, List.length_cons]
      omega
  have := hsum E.fs
  omega

/-- C9: whenever some chain of include steps from the configured file
revisits an already-loaded file (same normalized absolute path), and
every include of every file resolves to a readable file, `Load` fails —
it does not loop and does not succeed — with an error whose wrapping
chain contains `ErrIncludeLoop`. -/
theorem C9_include_loop :
    ∀ (E : Env) (r : RuntimeM) (l : List String),
      includeClosed E = true →
      (lookupFs E.fs r.configPath).isSome = true →
      Chain E r.configPath l →
      ¬ (l.map (absNorm E.cwd)).Nodup →
      failsWithIncludeLoop (loadModel E r) = true := by
  intro E r l hclosed hroot hchain hdup
  have hres : loadResolve E r = some r := by
    unfold loadResolve
    rw [if_pos hroot]
  have hfail : ∀ c v', loadConfigWithIncludes E (loadFuel E) [] r.configPath ≠ .ok (c, v') := by
    intro c v' hok
    have h := loadGo_chain_nodup (loadFuel E) E [] r.configPath c v' l hok hchain
    exact hdup h.1
  rcases (loadGo_classify (loadFuel E) E hclosed).1 [] r.configPath hroot
      (loadPotential_empty E) with ⟨c, v', hok⟩ | ⟨e, herr, hloop⟩
  · exact absurd hok (hfail c v')
  · have hmod : loadModel E r = .error (.wrapped "config.Load" e) := by
      simp [loadModel, hres, loadConfigWithIncludes, herr]
    rw [hmod]
    simpa [failsWithIncludeLoop, isIncludeLoopErr] using hloop

/-- Witness for C9 on the two-file cycle of `TestIncludeLoop`:
`/c/a.yml` includes `b.yml`, which includes `a.yml` back — `Load` fails
with `ErrIncludeLoop` in the error chain. -/
theorem C9_witness :
    includeClosed envLoopW = true ∧
      failsWithIncludeLoop (loadModel envLoopW rLoopW) = true := by
  refine ⟨by decide, ?_⟩
  refine C9_include_loop envLoopW rLoopW ["/c/a.yml", "/c/b.yml", "/c/a.yml"]
    (by decide) (by decide) ?_ (by decide)
  refine Chain.cons ?_ (Chain.cons ?_ (Chain.single "/c/a.yml"))
  · exact ⟨{ database := "", includes := ["b.yml"] }, by decide, by decide⟩
  · exact ⟨{ database := "", includes := ["a.yml"] }, by decide, by decide⟩

/-- C10 counterexample: the claim ties the `nom.db` exception to a legacy
fallback, but the code keys it on the base name.  Here the config file
`/home/u/config.yml` exists at the configured path, so no fallback
occurs; `WithDatabase` was not used and the file sets no database, so by
the claim the name should be the base-name derivation `config.db` — yet
`Load` produces the legacy `nom.db`. -/
theorem C10_counterexample :
    (lookupFs envLegacyName.fs rLegacyName.configPath).isSome = true ∧
      rLegacyName.database = "" ∧
      loadModel envLegacyName rLegacyName =
        .ok ({ configPath := "/home/u/config.yml", configDir := "/home/u/",
               database := "nom.db" }, { database := "", includes := [] }) ∧
      defaultDatabaseName rLegacyName.configPath = "config.db" ∧
      ("nom.db" : String) ≠ "config.db" :=
  ⟨by decide, by decide, by decide, by decide, by decide⟩

/-- C10 (amended): after a successful `Load` the database name is the
`WithDatabase` value when one was given; otherwise the merged config
file's value when non-empty; otherwise `nom.db` whenever the (possibly
fallback-resolved) config file's base name is the legacy `config.yml` —
whether reached by fallback or configured explicitly — and else the
config file's base name with its extension replaced by `".db"`. -/
theorem C10_database_resolution :
    ∀ (E : Env) (r t : RuntimeM) (fc : GoConfig),
      loadModel E r = .ok (t, fc) →
      t.database =
        (if r.database ≠ "" then r.database
         else if fc.database ≠ "" then fc.database
         else if goBase t.configPath = LegacyConfigFileName then LegacyDatabaseName
         else defaultDatabaseName t.configPath) := by
  intro E r t fc h
  unfold loadModel at h
  split at h
  · exact absurd h (by simp)
  · rename_i r2 hres
    split at h
    · exact absurd h (by simp)
    · rename_i pr fileConfig vis hok
      injection h with h
      rw [Prod.mk.injEq] at h
      obtain ⟨ht, hfc⟩ := h
      subst hfc
      subst ht
      have hrdb : r2.database = r.database := by
        unfold loadResolve at hres
        by_cases hA : (lookupFs E.fs r.configPath).isSome = true
        · rw [if_pos hA] at hres
          injection hres with hres
          rw [← hres]
        · rw [if_neg hA] at hres
          by_cases hB : goBase r.configPath = DefaultConfigFileName
          · rw [if_pos hB] at hres
            by_cases hC : (lookupFs E.fs (goJoin r.configDir LegacyConfigFileName)).isSome
                = true
            · rw [if_pos hC] at hres
              injection hres with hres
              rw [← hres]
            · rw [if_neg hC] at hres
              exact absurd hres (by simp)
          · rw [if_neg hB] at hres
            exact absurd hres (by simp)
      unfold finishLoad resolveDatabase
      rw [hrdb]
      by_cases h1 : r.database = ""
      · by_cases h2 : fileConfig.database = ""
        · simp [h1, h2]
        · simp [h1, h2]
      · simp [h1]

/-- Witness for the amended C10: loading `/a/b.yml` (no override, file
sets no database, base name not legacy) derives `b.db` per the priority
chain. -/
theorem C10_witness :
    loadModel envPlain rPlain =
      .ok ({ configPath := "/a/b.yml", configDir := "/a/", database := "b.db" },
        { database := "", includes := [] }) ∧
      ("b.db" : String) =
        (if rPlain.database ≠ "" then rPlain.database
         else if ("" : String) ≠ "" then ("" : String)
         else if goBase "/a/b.yml" = LegacyConfigFileName then LegacyDatabaseName
         else defaultDatabaseName "/a/b.yml") :=
  ⟨by decide,
   C10_database_resolution envPlain rPlain
     { configPath := "/a/b.yml", configDir := "/a/", database := "b.db" }
     { database := "", includes := [] } (by decide)⟩

end Nom
